import Mathlib

/-!
Verification of the SciComp repository (`src/SciComp/ivp.py` and
`src/SciComp/_pde_solvers.py`) against its natural-language specification.

Conventions of the shallow embedding:
* Python floats are modelled as `ℚ` (exact arithmetic; the spec's algorithms
  are arithmetic-exact, no floating-point claim is settled here).
* NumPy 1-D arrays become `List ℚ` (for the IVP/shooting layer, whose arrays
  grow dynamically) or `Fin n → ℚ` (for the fixed-size PDE layer).
* The `while` loop of `solve_ode` is embedded as a fuel-indexed iteration
  `ivpRun`; `solve_ode` supplies fuel that is proved sufficient for every
  validated input, and once the loop guard fails the state is a fixed point,
  so the fueled run coincides with the Python loop.
* Fallible code returns `Except`; raised Python exceptions become `.error`.
-/

namespace SciComp

/-! ### Step functions

Modelled from the spec: the module `SciComp/_ode_solvers.py` (imported by both
source files) is not part of the provided sources.  Spec §4.1 defines the three
step functions: contract `(f, t, y, h) ↦ (t+h, y_next)` with
Euler `y + h*f(t,y)`, Heun predictor/corrector, and classic RK4. -/

section StepFunctions

variable {V : Type} [AddCommGroup V] [Module ℚ V]

/-- Modelled from the spec (§4.1, `_ode_solvers.py` missing from src):
Euler step `y_next = y + h * f(t, y)`, returning `(t+h, y_next)`. -/
def euler_step (f : ℚ → V → V) (t : ℚ) (y : V) (h : ℚ) : ℚ × V :=
  (t + h, y + h • f t y)

/-- Modelled from the spec (§4.1, `_ode_solvers.py` missing from src):
Heun step, predictor `y_p = y + h*f(t,y)`,
corrector `y_next = y + h/2*(f(t,y) + f(t+h, y_p))`. -/
def heun_step (f : ℚ → V → V) (t : ℚ) (y : V) (h : ℚ) : ℚ × V :=
  (t + h, y + (h / 2) • (f t y + f (t + h) (y + h • f t y)))

/-- Modelled from the spec (§4.1, `_ode_solvers.py` missing from src):
classic 4-stage Runge-Kutta step with weights `(k1+2k2+2k3+k4)/6`,
stages at `t`, `t+h/2` (twice), `t+h`. -/
def rk4_step (f : ℚ → V → V) (t : ℚ) (y : V) (h : ℚ) : ℚ × V :=
  let k1 := f t y
  let k2 := f (t + h / 2) (y + (h / 2) • k1)
  let k3 := f (t + h / 2) (y + (h / 2) • k2)
  let k4 := f (t + h) (y + h • k3)
  (t + h, y + (h / 6) • (k1 + (2 : ℚ) • k2 + (2 : ℚ) • k3 + k4))

/-- The three recognized integration methods
(`METHODS` dictionaries at `ivp.py:94` and `_pde_solvers.py:106`). -/
inductive StepKind : Type
  | euler
  | rk4
  | heun
deriving DecidableEq

/-- Dispatch from the resolved method tag to the step function. -/
def stepOf : StepKind → (ℚ → V → V) → ℚ → V → ℚ → ℚ × V
  | .euler => euler_step
  | .rk4 => rk4_step
  | .heun => heun_step

end StepFunctions

/-- Method-name lookup shared by `solve_ode` (`ivp.py:94`) and
`explicit_method` (`_pde_solvers.py:106`): the two `METHODS` dictionaries are
identical. -/
def METHODS (name : String) : Option StepKind :=
  if name = "Euler" then some .euler
  else if name = "RK4" then some .rk4
  else if name = "Heun" then some .heun
  else none

/-! ### Python dynamic equality, for the RK4 warning condition

At `ivp.py:98` the local variable `method` is rebound from the method *name*
to the step *function* (`method = METHODS[method]`).  The warning condition at
`ivp.py:112` then evaluates `method == rk4_step.__name__`, a Python `==`
between a function object and the string `'rk4_step'`.  We embed the two value
shapes that the variable can carry and Python's `==` on them: values of
different shapes are never equal. -/

/-- A Python value that the `method` variable can hold: a string (before
resolution) or a step function (after `method = METHODS[method]`). -/
inductive PyVal : Type
  | str (s : String)
  | func (k : StepKind)

/-- Python `==` restricted to the shapes above: strings compare by contents,
functions by identity, and a function is never equal to a string. -/
def pyEq : PyVal → PyVal → Bool
  | .str a, .str b => a == b
  | .func a, .func b => a = b
  | _, _ => false

/-- The condition of `ivp.py:112`, `tf < 0.001 and method == rk4_step.__name__`,
evaluated at the point where `method` already holds the resolved step function
`k` (rebinding at `ivp.py:98` precedes the `tf` checks at `ivp.py:104-116`). -/
def rk4WarnTriggered (tf : ℚ) (k : StepKind) : Bool :=
  decide (tf < 1 / 1000) && pyEq (.func k) (.str "rk4_step")

/-! ### IVP driver: the stepping loop of `solve_ode` (`ivp.py:131-147`) -/

/-- The loop state of `solve_ode`: current time `t`, current step size `d`
(the mutable `deltat_max` local), current state `y`, the accumulated time and
state lists, and the step counter. -/
structure IvpState (V : Type) where
  t : ℚ
  d : ℚ
  y : V
  ts : List ℚ
  ys : List V
  step : ℕ

/-- The `while` guard of `ivp.py:137`:
`(tf is None or t < tf) and (n_max is None or step < n_max)`. -/
def ivpGuard (tf? : Option ℚ) (nm? : Option ℕ) (s : IvpState V) : Bool :=
  (match tf? with
    | none => true
    | some tf => decide (s.t < tf)) &&
  (match nm? with
    | none => true
    | some m => decide (s.step < m))

/-- One iteration of the loop body (`ivp.py:138-145`): step with the current
step size, append the new `(t, y)`, increment the counter, then clamp the step
size when the *next* step would overshoot `tf`
(`if tf is not None and t + deltat_max > tf: deltat_max = tf - t`). -/
def ivpIter (stepF : ℚ → V → ℚ → ℚ × V) (tf? : Option ℚ) (s : IvpState V) :
    IvpState V :=
  let p := stepF s.t s.y s.d
  let d' :=
    match tf? with
    | some tf => if p.1 + s.d > tf then tf - p.1 else s.d
    | none => s.d
  ⟨p.1, d', p.2, s.ts ++ [p.1], s.ys ++ [p.2], s.step + 1⟩

/-- Fuel-indexed run of the loop: iterate while the guard holds, at most
`fuel` times.  `solve_ode` supplies fuel proved large enough that the guard
has failed by the time it runs out, so this coincides with the Python loop. -/
def ivpRun (stepF : ℚ → V → ℚ → ℚ × V) (tf? : Option ℚ) (nm? : Option ℕ) :
    ℕ → IvpState V → IvpState V
  | 0, s => s
  | n + 1, s =>
      if ivpGuard tf? nm? s then ivpRun stepF tf? nm? n (ivpIter stepF tf? s)
      else s

/-- The loop state entering `ivp.py:137`: `t = t0`, `y = y0`,
`t_array = [t0]`, `y_array = [y0]`, `step = 0`, step size `deltat_max`. -/
def ivpInit (t0 : ℚ) (y0 : V) (d0 : ℚ) : IvpState V :=
  ⟨t0, d0, y0, [t0], [y0], 0⟩

/-- Fuel supplied to `ivpRun` by `solve_ode`; proved sufficient for every
input passing validation (see the termination theorems below). -/
def ivpFuel (t0 : ℚ) (tf? : Option ℚ) (nm? : Option ℕ) (d0 : ℚ) : ℕ :=
  (match tf? with
    | some tf => ⌈(tf - t0) / d0⌉₊ + 1
    | none => 0) +
  (match nm? with
    | some m => m
    | none => 0) + 1

/-- `solve_ode` (`ivp.py:17-147`).  Python-type validation (`t0`/`y0`/shape
checks, `ivp.py:76-91`, and the int/float checks) is enforced by the Lean
types; the numeric and method validations are modelled in source order:
method lookup (`ivp.py:94-98`), the both-bounds-missing check (`ivp.py:101`),
the `tf` checks including the (dead) RK4 warning (`ivp.py:104-116`), the
`n_max > 0` check (`ivp.py:118-123`, `n_max` modelled as `ℕ`), and the
`deltat_max > 0` check (`ivp.py:126-129`).  Returns the time list, the state
list, and whether the RK4 rounding warning was emitted. -/
def solve_ode {V : Type} [AddCommGroup V] [Module ℚ V] (f : ℚ → V → V)
    (t0 : ℚ) (y0 : V) (tf? : Option ℚ) (nm? : Option ℕ) (methodName : String)
    (deltat_max : ℚ) : Except String (List ℚ × List V × Bool) :=
  match METHODS methodName with
  | none => .error "Invalid method"
  | some k =>
    if tf? = none ∧ nm? = none then .error "Either tf or n_max must be given."
    else
      let warnOk : Except String Bool :=
        match tf? with
        | none => .ok false
        | some tf =>
            if tf ≤ t0 then .error "tf must be greater than t0."
            else .ok (rk4WarnTriggered tf k)
      match warnOk with
      | .error e => .error e
      | .ok warn =>
        match nm? with
        | some 0 => .error "n_max must be greater than 0."
        | _ =>
          if deltat_max ≤ 0 then .error "deltat_max must be greater than 0."
          else
            let s := ivpRun (stepOf k f) tf? nm?
              (ivpFuel t0 tf? nm? deltat_max) (ivpInit t0 y0 deltat_max)
            .ok (s.ts, s.ys, warn)

/-! ### Lemmas about the stepping loop -/

/-- The step-function contract of spec §3/§4.1: a step called with step size
`h` returns time `t + h`. -/
def StepContract {V : Type} (stepF : ℚ → V → ℚ → ℚ × V) : Prop :=
  ∀ t y h, (stepF t y h).1 = t + h

theorem stepOf_contract {V : Type} [AddCommGroup V] [Module ℚ V]
    (k : StepKind) (f : ℚ → V → V) : StepContract (stepOf k f) := by
  cases k <;> intro t y h <;> rfl

theorem ivpRun_succ {V : Type} (stepF : ℚ → V → ℚ → ℚ × V) (tf? : Option ℚ)
    (nm? : Option ℕ) (n : ℕ) (s : IvpState V) :
    ivpRun stepF tf? nm? (n + 1) s =
      if ivpGuard tf? nm? s then ivpRun stepF tf? nm? n (ivpIter stepF tf? s)
      else s := rfl

theorem ivpRun_of_guard_false {V : Type} {stepF : ℚ → V → ℚ → ℚ × V}
    {tf? : Option ℚ} {nm? : Option ℕ} {s : IvpState V}
    (h : ivpGuard tf? nm? s = false) :
    ∀ n, ivpRun stepF tf? nm? n s = s := by
  intro n
  cases n with
  | zero => rfl
  | succ n => rw [ivpRun_succ, h]; simp

theorem ivpIter_t {V : Type} {stepF : ℚ → V → ℚ → ℚ × V} {tf? : Option ℚ}
    (hc : StepContract stepF) (s : IvpState V) :
    (ivpIter stepF tf? s).t = s.t + s.d := by
  simp [ivpIter, hc s.t s.y s.d]

theorem ivpGuard_false_of_le {V : Type} {tf : ℚ} {nm? : Option ℕ}
    {s : IvpState V} (h : tf ≤ s.t) : ivpGuard (some tf) nm? s = false := by
  simp [ivpGuard, not_lt.2 h]

theorem lt_of_ivpGuard_true {V : Type} {tf : ℚ} {nm? : Option ℕ}
    {s : IvpState V} (h : ivpGuard (some tf) nm? s = true) : s.t < tf := by
  simp only [ivpGuard, Bool.and_eq_true, decide_eq_true_eq] at h
  exact h.1

/-- While iterating towards `tf`, the clamped step never overshoots: if the
state satisfies `t ≤ tf` and `t + d ≤ tf`, every later state does too. -/
theorem ivpRun_le_tf {V : Type} {stepF : ℚ → V → ℚ → ℚ × V} {tf : ℚ}
    {nm? : Option ℕ} (hc : StepContract stepF) :
    ∀ (n : ℕ) (s : IvpState V), s.t ≤ tf → s.t + s.d ≤ tf →
      (ivpRun stepF (some tf) nm? n s).t ≤ tf ∧
      (ivpRun stepF (some tf) nm? n s).t + (ivpRun stepF (some tf) nm? n s).d ≤ tf := by
  intro n
  induction n with
  | zero => intro s h1 h2; exact ⟨h1, h2⟩
  | succ n ih =>
    intro s h1 h2
    rw [ivpRun_succ]
    by_cases hg : ivpGuard (some tf) nm? s = true
    · rw [hg, if_pos rfl]
      refine ih _ ?_ ?_
      · rw [ivpIter_t hc]; exact h2
      · rw [ivpIter_t hc]
        show s.t + s.d + (ivpIter stepF (some tf) s).d ≤ tf
        have hd' : (ivpIter stepF (some tf) s).d =
            if (stepF s.t s.y s.d).1 + s.d > tf then tf - (stepF s.t s.y s.d).1
            else s.d := rfl
        rw [hd']
        split
        · rw [hc s.t s.y s.d]; linarith
        · next hcl =>
            have := not_lt.1 hcl
            rw [hc s.t s.y s.d] at this
            linarith
    · have hgf : ivpGuard (some tf) nm? s = false := by
        revert hg; cases ivpGuard (some tf) nm? s <;> simp
      rw [hgf]
      simp only [Bool.false_eq_true, if_false]
      exact ⟨h1, h2⟩

/-- Progress: as long as the invariant `d0 ≤ d ∨ tf ≤ t + d ∨ tf ≤ t` holds
(it does from the start, where `d = d0`, and is preserved by the clamp), after
`n` iterations the time has reached at least `min tf (t + n*d0)`. -/
theorem ivpRun_min_le_t {V : Type} {stepF : ℚ → V → ℚ → ℚ × V} {tf d0 : ℚ}
    (hc : StepContract stepF) (hd0 : 0 < d0) :
    ∀ (n : ℕ) (s : IvpState V), (d0 ≤ s.d ∨ tf ≤ s.t + s.d ∨ tf ≤ s.t) →
      min tf (s.t + n * d0) ≤ (ivpRun stepF (some tf) none n s).t := by
  intro n
  induction n with
  | zero =>
    intro s _
    rw [Nat.cast_zero, zero_mul, add_zero]
    exact min_le_right tf s.t
  | succ n ih =>
    intro s hH
    rw [ivpRun_succ]
    by_cases hg : ivpGuard (some tf) none s = true
    · rw [hg, if_pos rfl]
      have hst : s.t < tf := lt_of_ivpGuard_true hg
      have hit : (ivpIter stepF (some tf) s).t = s.t + s.d := ivpIter_t hc s
      rcases hH with hd | hand | habs
      · have hH' : d0 ≤ (ivpIter stepF (some tf) s).d ∨
            tf ≤ (ivpIter stepF (some tf) s).t + (ivpIter stepF (some tf) s).d ∨
            tf ≤ (ivpIter stepF (some tf) s).t := by
          have hd'eq : (ivpIter stepF (some tf) s).d =
              if (stepF s.t s.y s.d).1 + s.d > tf then tf - (stepF s.t s.y s.d).1
              else s.d := rfl
          by_cases hcl : (stepF s.t s.y s.d).1 + s.d > tf
          · right; left
            rw [hit, hd'eq, if_pos hcl, hc s.t s.y s.d]
            linarith
          · left
            rw [hd'eq, if_neg hcl]
            exact hd
        refine le_trans ?_ (ih _ hH')
        rw [hit]
        refine min_le_min (le_refl tf) ?_
        push_cast
        have : (n : ℚ) * d0 ≥ 0 := by positivity
        nlinarith
      · have hstop : ivpGuard (some tf) none (ivpIter stepF (some tf) s) = false :=
          ivpGuard_false_of_le (by rw [hit]; exact hand)
        rw [ivpRun_of_guard_false hstop n]
        refine le_trans (min_le_left _ _) ?_
        rw [hit]; exact hand
      · exact absurd hst (not_lt.2 habs)
    · have hgf : ivpGuard (some tf) none s = false := by
        revert hg; cases ivpGuard (some tf) none s <;> simp
      rw [hgf]
      simp only [Bool.false_eq_true, if_false]
      have : tf ≤ s.t := by
        have : ¬ s.t < tf := fun hlt => by
          simp [ivpGuard, hlt] at hgf
        exact not_lt.1 this
      exact le_trans (min_le_left _ _) this

theorem le_add_mul_of_ceil_le {t0 tf d0 : ℚ} (hd : 0 < d0) {n : ℕ}
    (hn : ⌈(tf - t0) / d0⌉₊ ≤ n) : tf ≤ t0 + n * d0 := by
  have h1 : (tf - t0) / d0 ≤ (⌈(tf - t0) / d0⌉₊ : ℚ) := Nat.le_ceil _
  have h2 : ((⌈(tf - t0) / d0⌉₊ : ℕ) : ℚ) ≤ (n : ℚ) := by exact_mod_cast hn
  have h3 : (tf - t0) / d0 ≤ (n : ℚ) := le_trans h1 h2
  have h4 := (div_le_iff₀ hd).1 h3
  linarith

/-- With `tf` set and `n_max` absent, the loop guard has failed after at most
`⌈(tf - t0)/deltat_max⌉ + 1` iterations (indeed after `⌈(tf - t0)/d0⌉`). -/
theorem ivpRun_guard_false_of_fuel {V : Type} {stepF : ℚ → V → ℚ → ℚ × V}
    {t0 tf d0 : ℚ} {y0 : V} (hc : StepContract stepF) (hd : 0 < d0) {n : ℕ}
    (hn : ⌈(tf - t0) / d0⌉₊ ≤ n) :
    ivpGuard (some tf) none (ivpRun stepF (some tf) none n (ivpInit t0 y0 d0)) = false := by
  have hmin : min tf ((ivpInit t0 y0 d0).t + n * d0) ≤
      (ivpRun stepF (some tf) none n (ivpInit t0 y0 d0)).t :=
    ivpRun_min_le_t hc hd n (ivpInit t0 y0 d0) (Or.inl (le_refl d0))
  have hbig : tf ≤ t0 + n * d0 := le_add_mul_of_ceil_le hd hn
  have hge : tf ≤ (ivpRun stepF (some tf) none n (ivpInit t0 y0 d0)).t := by
    calc tf = min tf (t0 + n * d0) := (min_eq_left hbig).symm
    _ ≤ _ := hmin
  exact ivpGuard_false_of_le hge

/-- When the first step cannot overshoot (`t0 + d0 ≤ tf`), the loop's final
time is exactly `tf`. -/
theorem ivpRun_t_eq_tf {V : Type} {stepF : ℚ → V → ℚ → ℚ × V}
    {t0 tf d0 : ℚ} {y0 : V} (hc : StepContract stepF) (ht : t0 < tf)
    (hd : 0 < d0) (hfirst : t0 + d0 ≤ tf) {n : ℕ}
    (hn : ⌈(tf - t0) / d0⌉₊ ≤ n) :
    (ivpRun stepF (some tf) none n (ivpInit t0 y0 d0)).t = tf := by
  have hle : (ivpRun stepF (some tf) none n (ivpInit t0 y0 d0)).t ≤ tf :=
    (ivpRun_le_tf hc n (ivpInit t0 y0 d0) ht.le hfirst).1
  have hmin : min tf ((ivpInit t0 y0 d0).t + n * d0) ≤
      (ivpRun stepF (some tf) none n (ivpInit t0 y0 d0)).t :=
    ivpRun_min_le_t hc hd n (ivpInit t0 y0 d0) (Or.inl (le_refl d0))
  have hbig : tf ≤ t0 + n * d0 := le_add_mul_of_ceil_le hd hn
  have hge : tf ≤ (ivpRun stepF (some tf) none n (ivpInit t0 y0 d0)).t := by
    calc tf = min tf (t0 + n * d0) := (min_eq_left hbig).symm
    _ ≤ _ := hmin
  linarith

theorem ivpRun_ts_head {V : Type} {stepF : ℚ → V → ℚ → ℚ × V}
    {tf? : Option ℚ} {nm? : Option ℕ} :
    ∀ (n : ℕ) (s : IvpState V), s.ts ≠ [] →
      (ivpRun stepF tf? nm? n s).ts ≠ [] ∧
      (ivpRun stepF tf? nm? n s).ts.head? = s.ts.head? := by
  intro n
  induction n with
  | zero => intro s h; exact ⟨h, rfl⟩
  | succ n ih =>
    intro s h
    by_cases hg : ivpGuard tf? nm? s = true
    · rw [ivpRun_succ, hg, if_pos rfl]
      have hts : (ivpIter stepF tf? s).ts =
          s.ts ++ [(stepF s.t s.y s.d).1] := rfl
      have h1 := ih (ivpIter stepF tf? s) (by simp [hts])
      refine ⟨h1.1, ?_⟩
      rw [h1.2, hts]
      cases hts' : s.ts with
      | nil => exact absurd hts' h
      | cons a l => simp
    · have hgf : ivpGuard tf? nm? s = false := by
        revert hg; cases ivpGuard tf? nm? s <;> simp
      rw [ivpRun_of_guard_false hgf]
      exact ⟨h, rfl⟩

theorem ivpRun_ts_last {V : Type} {stepF : ℚ → V → ℚ → ℚ × V}
    {tf? : Option ℚ} {nm? : Option ℕ} :
    ∀ (n : ℕ) (s : IvpState V), s.ts.getLast? = some s.t →
      (ivpRun stepF tf? nm? n s).ts.getLast? =
        some (ivpRun stepF tf? nm? n s).t := by
  intro n
  induction n with
  | zero => intro s h; exact h
  | succ n ih =>
    intro s h
    by_cases hg : ivpGuard tf? nm? s = true
    · rw [ivpRun_succ, hg, if_pos rfl]
      refine ih _ ?_
      show (s.ts ++ [(stepF s.t s.y s.d).1]).getLast? = some (stepF s.t s.y s.d).1
      exact List.getLast?_concat _
    · have hgf : ivpGuard tf? nm? s = false := by
        revert hg; cases ivpGuard tf? nm? s <;> simp
      rw [ivpRun_of_guard_false hgf]
      exact h

/-- With `n_max` set, the guard has failed after at most `n_max` iterations
(whatever `tf` is). -/
theorem ivpRun_guard_false_of_nmax {V : Type} {stepF : ℚ → V → ℚ → ℚ × V}
    {tf? : Option ℚ} {m : ℕ} :
    ∀ (n : ℕ) (s : IvpState V), m ≤ s.step + n →
      ivpGuard tf? (some m) (ivpRun stepF tf? (some m) n s) = false := by
  intro n
  induction n with
  | zero =>
    intro s h
    show ivpGuard tf? (some m) s = false
    have hb : decide (s.step < m) = false := by
      simp only [Nat.add_zero] at h
      simp [not_lt.2 h]
    simp [ivpGuard, hb]
  | succ n ih =>
    intro s h
    by_cases hg : ivpGuard tf? (some m) s = true
    · rw [ivpRun_succ, hg, if_pos rfl]
      refine ih _ ?_
      show m ≤ (ivpIter stepF tf? s).step + n
      have : (ivpIter stepF tf? s).step = s.step + 1 := rfl
      omega
    · have hgf : ivpGuard tf? (some m) s = false := by
        revert hg; cases ivpGuard tf? (some m) s <;> simp
      rw [ivpRun_of_guard_false hgf]
      exact hgf

/-- Each iteration takes exactly one step, so a run with `n` units of fuel
takes at most `n` steps. -/
theorem ivpRun_step_le {V : Type} {stepF : ℚ → V → ℚ → ℚ × V}
    {tf? : Option ℚ} {nm? : Option ℕ} :
    ∀ (n : ℕ) (s : IvpState V),
      (ivpRun stepF tf? nm? n s).step ≤ s.step + n := by
  intro n
  induction n with
  | zero =>
    intro s
    show s.step ≤ s.step + 0
    omega
  | succ n ih =>
    intro s
    by_cases hg : ivpGuard tf? nm? s = true
    · rw [ivpRun_succ, hg, if_pos rfl]
      have := ih (ivpIter stepF tf? s)
      have hstep : (ivpIter stepF tf? s).step = s.step + 1 := rfl
      omega
    · have hgf : ivpGuard tf? nm? s = false := by
        revert hg; cases ivpGuard tf? nm? s <;> simp
      rw [ivpRun_of_guard_false hgf]
      omega

/-- `solve_ode` in the `tf`-set, `n_max`-absent configuration, for any valid
method name and validated numeric inputs: it returns the loop's trajectory
and the (dead) warning flag. -/
theorem solve_ode_tf_ok {V : Type} [AddCommGroup V] [Module ℚ V]
    (f : ℚ → V → V) {t0 tf d0 : ℚ} (y0 : V) {name : String} {k : StepKind}
    (hm : METHODS name = some k) (ht : t0 < tf) (hd : 0 < d0) :
    solve_ode f t0 y0 (some tf) none name d0 =
      .ok ((ivpRun (stepOf k f) (some tf) none
              (ivpFuel t0 (some tf) none d0) (ivpInit t0 y0 d0)).ts,
           (ivpRun (stepOf k f) (some tf) none
              (ivpFuel t0 (some tf) none d0) (ivpInit t0 y0 d0)).ys,
           rk4WarnTriggered tf k) := by
  have h1 : ¬ ((some tf = (none : Option ℚ)) ∧ ((none : Option ℕ) = none)) := by
    simp
  have h2 : ¬ tf ≤ t0 := not_le.2 ht
  have h3 : ¬ d0 ≤ 0 := not_le.2 hd
  simp only [solve_ode, hm, if_neg h1, if_neg h2, if_neg h3]
  rw [if_neg (by simp)]

/-- If the very first step already overshoots (`tf < t0 + d0`), the loop runs
exactly one iteration: the clamp of `ivp.py:144-145` only executes *after* a
step, so it cannot protect the first one. -/
theorem ivpRun_one_step {V : Type} {stepF : ℚ → V → ℚ → ℚ × V}
    {t0 tf d0 : ℚ} {y0 : V} (hc : StepContract stepF) (ht : t0 < tf)
    (hover : tf < t0 + d0) (n : ℕ) :
    ivpRun stepF (some tf) none (n + 1) (ivpInit t0 y0 d0) =
      ivpIter stepF (some tf) (ivpInit t0 y0 d0) := by
  rw [ivpRun_succ]
  have hg : ivpGuard (some tf) none (ivpInit t0 y0 d0) = true := by
    simp [ivpGuard, ivpInit, ht]
  rw [hg, if_pos rfl]
  apply ivpRun_of_guard_false
  apply ivpGuard_false_of_le
  rw [ivpIter_t hc]
  exact hover.le

/-- **C1 (counterexample)**: the claim "the last time entry equals exactly
`tf` for every `deltat_max > 0` passing validation" is false.  With `t0 = 0`,
`tf = 1`, `deltat_max = 2` (validation passes: `tf > t0`, `deltat_max > 0`),
`solve_ode` returns the trajectory with times `[0, 2]`: the first step
overshoots before the clamp ever runs, and the last time entry is `2`, not
the required `1`. -/
theorem solveOde_overshoot_counterexample :
    ∃ r, solve_ode (V := ℚ) (fun _ _ => 0) 0 0 (some 1) none "Euler" 2 =
        .ok r ∧ r.1.getLast? = some 2 ∧ ¬ r.1.getLast? = some 1 := by
  have hok := solve_ode_tf_ok (V := ℚ) (fun _ _ => 0) 0
    (rfl : METHODS "Euler" = some .euler) (by norm_num : (0:ℚ) < 1)
    (by norm_num : (0:ℚ) < 2)
  have hfuel : ivpFuel (0 : ℚ) (some 1) none 2 =
      (⌈((1 : ℚ) - 0) / 2⌉₊ + 1 + 0) + 1 := rfl
  have hrun : ivpRun (stepOf .euler (fun _ _ => (0:ℚ))) (some 1) none
      (ivpFuel 0 (some 1) none 2) (ivpInit 0 0 2) =
      ivpIter (stepOf .euler (fun _ _ => (0:ℚ))) (some 1) (ivpInit 0 0 2) := by
    rw [hfuel]
    exact ivpRun_one_step (stepOf_contract _ _) (by norm_num) (by norm_num) _
  have hlast : (ivpIter (stepOf .euler (fun _ _ => (0:ℚ))) (some 1)
      (ivpInit 0 0 2)).ts.getLast? = some 2 := by
    simp [ivpIter, ivpInit, stepOf, euler_step]
  refine ⟨_, hok, ?_, ?_⟩
  · show (ivpRun (stepOf .euler (fun _ _ => (0:ℚ))) (some 1) none
        (ivpFuel 0 (some 1) none 2) (ivpInit 0 0 2)).ts.getLast? = some 2
    rw [hrun, hlast]
  · show ¬ (ivpRun (stepOf .euler (fun _ _ => (0:ℚ))) (some 1) none
        (ivpFuel 0 (some 1) none 2) (ivpInit 0 0 2)).ts.getLast? = some 1
    rw [hrun, hlast]
    simp

/-- **C1 (amended)**: for every vector field, initial state, valid method
name, `tf > t0` and `0 < deltat_max` passing validation **and satisfying
`t0 + deltat_max ≤ tf`** (the clamp only runs after a step, so the first step
must not overshoot), `solve_ode` returns a trajectory whose first time entry
is `t0` and whose last time entry is exactly `tf`, regardless of whether
`tf - t0` is an exact multiple of `deltat_max`. -/
theorem solveOde_clamp_lands_on_tf {V : Type} [AddCommGroup V] [Module ℚ V]
    (f : ℚ → V → V) (t0 : ℚ) (y0 : V) (tf d0 : ℚ) (name : String)
    (k : StepKind) (hm : METHODS name = some k) (ht : t0 < tf) (hd : 0 < d0)
    (hfirst : t0 + d0 ≤ tf) :
    ∃ r, solve_ode f t0 y0 (some tf) none name d0 = .ok r ∧
      r.1.head? = some t0 ∧ r.1.getLast? = some tf := by
  refine ⟨_, solve_ode_tf_ok f y0 hm ht hd, ?_, ?_⟩
  · show (ivpRun (stepOf k f) (some tf) none (ivpFuel t0 (some tf) none d0)
        (ivpInit t0 y0 d0)).ts.head? = some t0
    have h1 : (ivpRun (stepOf k f) (some tf) none (ivpFuel t0 (some tf) none d0)
          (ivpInit t0 y0 d0)).ts ≠ [] ∧
        (ivpRun (stepOf k f) (some tf) none (ivpFuel t0 (some tf) none d0)
          (ivpInit t0 y0 d0)).ts.head? = (ivpInit (V := V) t0 y0 d0).ts.head? :=
      ivpRun_ts_head _ _ (by simp [ivpInit])
    rw [h1.2]
    rfl
  · show (ivpRun (stepOf k f) (some tf) none (ivpFuel t0 (some tf) none d0)
        (ivpInit t0 y0 d0)).ts.getLast? = some tf
    have h1 : (ivpRun (stepOf k f) (some tf) none (ivpFuel t0 (some tf) none d0)
          (ivpInit t0 y0 d0)).ts.getLast? =
        some (ivpRun (stepOf k f) (some tf) none (ivpFuel t0 (some tf) none d0)
          (ivpInit t0 y0 d0)).t :=
      ivpRun_ts_last _ _ (by simp [ivpInit])
    rw [h1]
    have hfb : ⌈(tf - t0) / d0⌉₊ ≤ ivpFuel t0 (some tf) none d0 := by
      have : ivpFuel t0 (some tf) none d0 = ⌈(tf - t0) / d0⌉₊ + 1 + 0 + 1 := rfl
      omega
    rw [ivpRun_t_eq_tf (stepOf_contract k f) ht hd hfirst hfb]

/-- Witness for the amended C1 at `t0 = 0`, `tf = 1`, `deltat_max = 2/5`
(`1` is not a multiple of `2/5`: the clamp shrinks the third step to `1/5`). -/
theorem solveOde_clamp_lands_on_tf_witness :
    METHODS "Euler" = some .euler ∧ (0:ℚ) < 1 ∧ (0:ℚ) < 2/5 ∧
      (0:ℚ) + 2/5 ≤ 1 ∧
      (∃ r, solve_ode (V := ℚ) (fun _ _ => 0) 0 0 (some 1) none "Euler" (2/5) =
          .ok r ∧ r.1.head? = some 0 ∧ r.1.getLast? = some 1) :=
  ⟨rfl, by norm_num, by norm_num, by norm_num,
    solveOde_clamp_lands_on_tf (fun _ _ => 0) 0 0 1 (2/5) "Euler" .euler rfl
      (by norm_num) (by norm_num) (by norm_num)⟩

/-- **C7**: the RK4 sub-millisecond rounding warning is *never* emitted: the
condition at `ivp.py:112` compares the already-resolved step function with
the string `'rk4_step'`, which Python `==` always evaluates to `False` (and
had it fired, `warnings.warn(...format(h))` would raise `NameError`, `h`
being undefined there).  A call with `0 = t0 < tf = 1/2000 < 0.001` and
method `'RK4'` returns its trajectory with the warning flag `false`. -/
theorem rk4Warning_never_emitted :
    (∀ (tf : ℚ) (k : StepKind), rk4WarnTriggered tf k = false) ∧
    (∃ r, solve_ode (V := ℚ) (fun _ _ => 0) 0 0 (some (1/2000)) none "RK4"
        (1/10000) = .ok r ∧ r.2.2 = false) := by
  constructor
  · intro tf k
    simp [rk4WarnTriggered, pyEq]
  · refine ⟨_, solve_ode_tf_ok (V := ℚ) (fun _ _ => 0) 0
      (rfl : METHODS "RK4" = some .rk4) (by norm_num : (0:ℚ) < 1/2000)
      (by norm_num : (0:ℚ) < 1/10000), ?_⟩
    show rk4WarnTriggered (1/2000) .rk4 = false
    simp [rk4WarnTriggered, pyEq]

/-- **C10**: under the step-function contract, the stepping loop of
`solve_ode` terminates.  With `tf` set and `n_max` absent the guard has
failed after at most `⌈(tf - t0)/deltat_max⌉ + 1` iterations; with `n_max`
set (any `tf`) it has failed after at most `n_max` iterations; and a run with
`fuel` iterations available takes at most `fuel` steps. -/
theorem ivpLoop_terminates {V : Type} (stepF : ℚ → V → ℚ → ℚ × V)
    (hc : StepContract stepF) (t0 : ℚ) (y0 : V) (tf d0 : ℚ) (m : ℕ)
    (ht : t0 < tf) (hd : 0 < d0) :
    (∀ fuel, ⌈(tf - t0) / d0⌉₊ + 1 ≤ fuel →
      ivpGuard (some tf) none
        (ivpRun stepF (some tf) none fuel (ivpInit t0 y0 d0)) = false) ∧
    (∀ (tf? : Option ℚ) (fuel : ℕ), m ≤ fuel →
      ivpGuard tf? (some m)
        (ivpRun stepF tf? (some m) fuel (ivpInit t0 y0 d0)) = false) ∧
    (∀ (tf? : Option ℚ) (nm? : Option ℕ) (fuel : ℕ),
      (ivpRun stepF tf? nm? fuel (ivpInit t0 y0 d0)).step ≤ fuel) := by
  refine ⟨?_, ?_, ?_⟩
  · intro fuel hf
    exact ivpRun_guard_false_of_fuel hc hd (by omega)
  · intro tf? fuel hf
    refine ivpRun_guard_false_of_nmax fuel (ivpInit t0 y0 d0) ?_
    show m ≤ 0 + fuel
    omega
  · intro tf? nm? fuel
    have h : (ivpRun stepF tf? nm? fuel (ivpInit t0 y0 d0)).step ≤
        (ivpInit (V := V) t0 y0 d0).step + fuel :=
      ivpRun_step_le fuel (ivpInit t0 y0 d0)
    have h0 : (ivpInit (V := V) t0 y0 d0).step = 0 := rfl
    omega

/-- Witness for C10: the Euler step on the zero field satisfies the contract
and `t0 = 0 < 1 = tf`, `deltat_max = 1/2 > 0`, `n_max = 3`. -/
theorem ivpLoop_terminates_witness :
    StepContract (stepOf .euler (fun _ _ => (0:ℚ))) ∧ (0:ℚ) < 1 ∧
      (0:ℚ) < 1/2 ∧
      ((∀ fuel, ⌈((1:ℚ) - 0) / (1/2)⌉₊ + 1 ≤ fuel →
        ivpGuard (some 1) none
          (ivpRun (stepOf .euler (fun _ _ => (0:ℚ))) (some 1) none fuel
            (ivpInit 0 0 (1/2))) = false) ∧
      (∀ (tf? : Option ℚ) (fuel : ℕ), 3 ≤ fuel →
        ivpGuard tf? (some 3)
          (ivpRun (stepOf .euler (fun _ _ => (0:ℚ))) tf? (some 3) fuel
            (ivpInit 0 0 (1/2))) = false) ∧
      (∀ (tf? : Option ℚ) (nm? : Option ℕ) (fuel : ℕ),
        (ivpRun (stepOf .euler (fun _ _ => (0:ℚ))) tf? nm? fuel
          (ivpInit 0 0 (1/2))).step ≤ fuel)) :=
  ⟨stepOf_contract _ _, by norm_num, by norm_num,
    ivpLoop_terminates (stepOf .euler (fun _ _ => (0:ℚ)))
      (stepOf_contract _ _) 0 0 1 (1/2) 3 (by norm_num) (by norm_num)⟩

/-! ### Shooting solver (`ivp.py:150-273`)

The ODE-solving capability (the `ode_solver` parameter, default `solve_ode`)
is modelled as a function from `(t0, Y0, tf)` to the returned pair
`(t_array, y_rows)`; the vector field and its extra args, bound into the
capability at the call site, are part of that function.  The root-finding
capability takes the residual function and the initial guess and returns the
solution vector (spec §6). -/

/-- The errors `shooting` can raise after the root solve (`ivp.py:260-271`):
indexing an empty solution vector, the convergence `ValueError` of
`ivp.py:262-268` (reporting the residual, `X0` and `T`), and the
non-positive-period `ValueError` of `ivp.py:270-271`. -/
inductive ShootError : Type
  | indexError
  | convergence (resid X0 : List ℚ) (T : ℚ)
  | domain
deriving DecidableEq

/-- The residual function `shooting_root` (`ivp.py:235-253`): split the
candidate into `Y0 = initial_guess[:-1]` and `T = initial_guess[-1]`, solve
the ODE from `0` to `T` starting at `Y0`, and build `num_vars` conditions:
`conditions[i] = y[-1, i] - Y0[i]` for `i < num_vars - 1`, and
`conditions[-1] = phase_function(0, Y0)`.  (`initial_guess[-1]` on a nonempty
candidate; the `getLastD` default is never consulted then.) -/
def shooting_root (odeSolver : ℚ → List ℚ → ℚ → List ℚ × List (List ℚ))
    (phase : ℚ → List ℚ → ℚ) (guess : List ℚ) : List ℚ :=
  let T := guess.getLastD 0
  let Y0 := guess.dropLast
  let y := (odeSolver 0 Y0 T).2
  let yT := y.getLastD []
  ((List.range (guess.length - 1)).map fun i => yT.getD i 0 - Y0.getD i 0)
    ++ [phase 0 Y0]

/-- The post-root-solve part of `shooting` (`ivp.py:256-273`): run the root
solver, split the solution into `X0 = sol[:-1]` and `T = sol[-1]`, re-evaluate
the residual at `sol`; if any entry exceeds `atol` in absolute value
(`np.allclose(final_conditions, 0, atol=atol)` with the comparison target
zero, so the relative term vanishes) raise the convergence error; then if
`T <= 0` raise the domain error; otherwise return `(X0, T)`.  The probing
prechecks of `ivp.py:200-229` only add earlier error exits for malformed
inputs and are not modelled. -/
def shooting (odeSolver : ℚ → List ℚ → ℚ → List ℚ × List (List ℚ))
    (phase : ℚ → List ℚ → ℚ)
    (rootSolver : (List ℚ → List ℚ) → List ℚ → List ℚ)
    (U0 : List ℚ) (atol : ℚ) : Except ShootError (List ℚ × ℚ) :=
  let sr := shooting_root odeSolver phase
  let sol := rootSolver sr U0
  match sol.getLast? with
  | none => .error .indexError
  | some T =>
      let X0 := sol.dropLast
      let fc := sr sol
      if fc.all fun c => decide (|c| ≤ atol) then
        if T ≤ 0 then .error .domain
        else .ok (X0, T)
      else .error (.convergence fc X0 T)

/-- Entry `i < L` of `(List.range L).map f`. -/
theorem getD_map_range (f : ℕ → ℚ) (L i : ℕ) (hi : i < L) :
    ((List.range L).map f).getD i 0 = f i := by
  rw [List.getD_eq_getElem?_getD, List.getElem?_map, List.getElem?_range hi]
  rfl

/-- **C3**: for a candidate of length `n+1`, the `shooting_root` residual has
length `n+1`; entry `i < n` is `y(T)[i] - Y0[i]` where `y(T)` is the final
state of the IVP solve from `0` to `T = guess[-1]` started at
`Y0 = guess[:-1]`; and the final entry is `phase_function(0, Y0)`. -/
theorem shooting_root_spec
    (odeSolver : ℚ → List ℚ → ℚ → List ℚ × List (List ℚ))
    (phase : ℚ → List ℚ → ℚ) (guess : List ℚ) (n : ℕ)
    (hlen : guess.length = n + 1) :
    (shooting_root odeSolver phase guess).length = n + 1 ∧
    (∀ i, i < n →
      (shooting_root odeSolver phase guess).getD i 0 =
        ((odeSolver 0 guess.dropLast (guess.getLastD 0)).2.getLastD []).getD i 0
          - guess.dropLast.getD i 0) ∧
    (shooting_root odeSolver phase guess).getD n 0 = phase 0 guess.dropLast := by
  have hn : guess.length - 1 = n := by omega
  refine ⟨?_, ?_, ?_⟩
  · simp [shooting_root, hn]
  · intro i hi
    show (((List.range (guess.length - 1)).map fun i =>
        (((odeSolver 0 guess.dropLast (guess.getLastD 0)).2).getLastD []).getD i 0
          - guess.dropLast.getD i 0) ++ [phase 0 guess.dropLast]).getD i 0 = _
    rw [List.getD_append _ _ _ _ (by simp [hn]; omega)]
    rw [hn, getD_map_range _ _ _ hi]
  · show (((List.range (guess.length - 1)).map fun i =>
        (((odeSolver 0 guess.dropLast (guess.getLastD 0)).2).getLastD []).getD i 0
          - guess.dropLast.getD i 0) ++ [phase 0 guess.dropLast]).getD n 0 = _
    rw [List.getD_append_right _ _ _ _ (by simp [hn])]
    simp [hn]

/-- Witness for C3 at `guess = [1, 2]` (`n = 1`), a solver whose final state
is `[5]` and a phase function constantly `7`: the residual is `[4, 7]`. -/
theorem shooting_root_spec_witness :
    ([(1:ℚ), 2].length = 1 + 1) ∧
    ((shooting_root (fun _ _ _ => ([], [[5]])) (fun _ _ => 7) [1, 2]).length = 1 + 1 ∧
    (∀ i, i < 1 →
      (shooting_root (fun _ _ _ => ([], [[5]])) (fun _ _ => 7) [1, 2]).getD i 0 =
        (((fun (_ : ℚ) (_ : List ℚ) (_ : ℚ) =>
            (([] : List ℚ), [[(5:ℚ)]])) 0 [(1:ℚ), 2].dropLast
              ([(1:ℚ), 2].getLastD 0)).2.getLastD []).getD i 0
          - [(1:ℚ), 2].dropLast.getD i 0) ∧
    (shooting_root (fun _ _ _ => ([], [[5]])) (fun _ _ => 7) [1, 2]).getD 1 0 =
      (fun (_ : ℚ) (_ : List ℚ) => (7:ℚ)) 0 [(1:ℚ), 2].dropLast) :=
  ⟨rfl, shooting_root_spec (fun _ _ _ => ([], [[5]])) (fun _ _ => 7) [1, 2] 1 rfl⟩

/-- The shape of `shooting` after the root solve, given the solver output and
its last entry. -/
theorem shooting_eq (odeSolver : ℚ → List ℚ → ℚ → List ℚ × List (List ℚ))
    (phase : ℚ → List ℚ → ℚ)
    (rootSolver : (List ℚ → List ℚ) → List ℚ → List ℚ)
    (U0 : List ℚ) (atol : ℚ) (sol : List ℚ) (T : ℚ)
    (hsol : rootSolver (shooting_root odeSolver phase) U0 = sol)
    (hT : sol.getLast? = some T) :
    shooting odeSolver phase rootSolver U0 atol =
      if (shooting_root odeSolver phase sol).all (fun c => decide (|c| ≤ atol))
      then (if T ≤ 0 then .error .domain else .ok (sol.dropLast, T))
      else .error (.convergence (shooting_root odeSolver phase sol)
        sol.dropLast T) := by
  simp only [shooting]
  rw [hsol, hT]

/-- **C4**: whenever `shooting` returns normally, the residual re-evaluated at
the returned solution is within `atol` of zero in every entry and the
returned `T` is strictly positive; if some residual entry exceeds `atol` it
raises the convergence error reporting the residual, `X0` and `T`; if the
residual passes but `T ≤ 0` it raises the domain error; and a solution with
`T ≤ 0` is never returned. -/
theorem shooting_postconditions
    (odeSolver : ℚ → List ℚ → ℚ → List ℚ × List (List ℚ))
    (phase : ℚ → List ℚ → ℚ)
    (rootSolver : (List ℚ → List ℚ) → List ℚ → List ℚ)
    (U0 : List ℚ) (atol : ℚ) (sol : List ℚ) (T : ℚ)
    (hsol : rootSolver (shooting_root odeSolver phase) U0 = sol)
    (hT : sol.getLast? = some T) :
    (∀ X0' T', shooting odeSolver phase rootSolver U0 atol = .ok (X0', T') →
      (∀ c ∈ shooting_root odeSolver phase sol, |c| ≤ atol) ∧ 0 < T') ∧
    ((∃ c ∈ shooting_root odeSolver phase sol, atol < |c|) →
      shooting odeSolver phase rootSolver U0 atol =
        .error (.convergence (shooting_root odeSolver phase sol)
          sol.dropLast T)) ∧
    ((∀ c ∈ shooting_root odeSolver phase sol, |c| ≤ atol) → T ≤ 0 →
      shooting odeSolver phase rootSolver U0 atol = .error .domain) ∧
    (T ≤ 0 → ∀ X0' T',
      ¬ shooting odeSolver phase rootSolver U0 atol = .ok (X0', T')) := by
  have heq := shooting_eq odeSolver phase rootSolver U0 atol sol T hsol hT
  have hiff : (((shooting_root odeSolver phase sol).all
        fun c => decide (|c| ≤ atol)) = true) ↔
      ∀ c ∈ shooting_root odeSolver phase sol, |c| ≤ atol := by
    simp [List.all_eq_true]
  refine ⟨?_, ?_, ?_, ?_⟩
  · intro X0' T' hok
    rw [heq] at hok
    by_cases hall : ((shooting_root odeSolver phase sol).all
        fun c => decide (|c| ≤ atol)) = true
    · rw [if_pos hall] at hok
      by_cases hT0 : T ≤ 0
      · rw [if_pos hT0] at hok
        exact absurd hok (by simp)
      · rw [if_neg hT0] at hok
        have hT' : T' = T := by
          have := hok
          simp only [Except.ok.injEq, Prod.mk.injEq] at this
          exact this.2.symm
        refine ⟨hiff.mp hall, ?_⟩
        rw [hT']
        exact lt_of_not_le hT0
    · rw [if_neg hall] at hok
      exact absurd hok (by simp)
  · rintro ⟨c, hc, hgt⟩
    rw [heq]
    have hall : ¬ (((shooting_root odeSolver phase sol).all
        fun c => decide (|c| ≤ atol)) = true) := by
      rw [hiff]
      intro hfor
      exact absurd (hfor c hc) (not_le.2 hgt)
    rw [if_neg hall]
  · intro hsmall hT0
    rw [heq, if_pos (hiff.mpr hsmall), if_pos hT0]
  · intro hT0 X0' T' hok
    rw [heq] at hok
    by_cases hall : ((shooting_root odeSolver phase sol).all
        fun c => decide (|c| ≤ atol)) = true
    · rw [if_pos hall, if_pos hT0] at hok
      exact absurd hok (by simp)
    · rw [if_neg hall] at hok
      exact absurd hok (by simp)

/-- Witness for C4: identity root solver on `U0 = [1, 2]`, a solver whose
final state equals the initial one (residual `[0, 0]`), phase constantly `0`,
`atol = 1`: `shooting` returns `([1], 2)` with `T = 2 > 0`. -/
theorem shooting_postconditions_witness :
    ((fun (_ : List ℚ → List ℚ) (g : List ℚ) => g)
        (shooting_root (fun _ y0 _ => ([], [y0])) (fun _ _ => 0)) [1, 2] =
      [(1:ℚ), 2]) ∧
    ([(1:ℚ), 2].getLast? = some 2) ∧
    ((∀ X0' T', shooting (fun _ y0 _ => ([], [y0])) (fun _ _ => 0)
        (fun _ g => g) [1, 2] 1 = .ok (X0', T') →
      (∀ c ∈ shooting_root (fun _ y0 _ => ([], [y0])) (fun _ _ => 0) [1, 2],
        |c| ≤ 1) ∧ 0 < T') ∧
    ((∃ c ∈ shooting_root (fun _ y0 _ => ([], [y0])) (fun _ _ => 0) [1, 2],
        1 < |c|) →
      shooting (fun _ y0 _ => ([], [y0])) (fun _ _ => 0) (fun _ g => g)
          [1, 2] 1 =
        .error (.convergence
          (shooting_root (fun _ y0 _ => ([], [y0])) (fun _ _ => 0) [1, 2])
          [(1:ℚ), 2].dropLast 2)) ∧
    ((∀ c ∈ shooting_root (fun _ y0 _ => ([], [y0])) (fun _ _ => 0) [1, 2],
        |c| ≤ 1) → (2:ℚ) ≤ 0 →
      shooting (fun _ y0 _ => ([], [y0])) (fun _ _ => 0) (fun _ g => g)
        [1, 2] 1 = .error .domain) ∧
    ((2:ℚ) ≤ 0 → ∀ X0' T',
      ¬ shooting (fun _ y0 _ => ([], [y0])) (fun _ _ => 0) (fun _ g => g)
        [1, 2] 1 = .ok (X0', T'))) :=
  ⟨rfl, rfl, shooting_postconditions (fun _ y0 _ => ([], [y0])) (fun _ _ => 0)
    (fun _ g => g) [1, 2] 1 [1, 2] 2 rfl rfl⟩

/-! ### PDE time steppers (`_pde_solvers.py`)

The BVP descriptor is an external capability (spec §1, §6): it supplies
`construct_matrix() -> (A, b, x_array)`, the fields `alpha, beta, C, N,
shape, sparse`, the initial-condition function `f_fun` and the optional
reaction term `q_fun`.  We model one spatial size `n` (`shape` and
`len(x_array)` agree in every use: `A @ u` requires it).  The dense and
sparse linear-solve primitives (`np.linalg.solve`, `sp.linalg.spsolve`) are
external capabilities `solve(A, rhs) -> x` (spec §6) and enter as function
parameters `dsolve`/`ssolve`. -/

/-- The BVP descriptor capability (spec §6), with `construct_matrix`'s result
inlined as the fields `A`, `b`, `x_array`.  `q_fun` is modelled with the
three-argument shape `q_fun(x, t, u)` used by `imex_euler`
(`_pde_solvers.py:252`); `explicit_method` never successfully applies its
`q_fun` (see `explicit_method` below). -/
structure BVP (n : ℕ) where
  A : Matrix (Fin n) (Fin n) ℚ
  b : Fin n → ℚ
  x_array : Fin n → ℚ
  C : ℚ
  alpha : ℚ
  beta : ℚ
  f_fun : (Fin n → ℚ) → ℚ → Fin n → ℚ
  q_fun : Option ((Fin n → ℚ) → ℚ → (Fin n → ℚ) → Fin n → ℚ)
  sparse : Bool
  Nv : ℕ

/-- The initial column written by the assignments
`u[:, 0] = f_fun(x_array, t[0])`, `u[0, :] = alpha`, `u[-1, :] = beta`
(`_pde_solvers.py:120-122` and `66-69`): the later `beta` write to the last
row wins over the `alpha` write when the two rows coincide (`n = 1`). -/
def pinColV (bvp : BVP n) (v : Fin n → ℚ) : Fin n → ℚ :=
  fun i => if i.val = n - 1 then bvp.beta else if i.val = 0 then bvp.alpha else v i

/-- The method-of-lines right-hand side built by `explicit_method` when
`q_fun` is absent (`_pde_solvers.py:125-126`): `PDE(t, u) = C * (A @ u + b)`. -/
def molRhs (bvp : BVP n) : ℚ → (Fin n → ℚ) → Fin n → ℚ :=
  fun _ u => bvp.C • (bvp.A.mulVec u + bvp.b)

/-- The columns produced by the loop of `_pde_solvers.py:131-133` (with
`q_fun` absent): column `0` is the pinned initial column, and each following
column is the *whole* result of `euler_step(PDE, t_, u[:, n], 1)` — the source
calls `euler_step` at line 133 regardless of the resolved `method`, and the
internal time `t_` starts at `t[0]` and advances by the fixed step `1`. -/
def emCols (bvp : BVP n) (t : List ℚ) : ℕ → Fin n → ℚ
  | 0 => pinColV bvp (bvp.f_fun bvp.x_array (t.headD 0))
  | j + 1 =>
      (euler_step (molRhs bvp) (t.headD 0 + j) (emCols bvp t j) 1).2

/-- `explicit_method` (`_pde_solvers.py:85-135`).  Validates the method name
against `METHODS`; the resolved step function is then *unused*: the loop at
line 133 always advances with `euler_step`.  An empty time grid makes
`u[:, 0]` raise (modelled as an error); when `q_fun` is present the local
`PDE` is defined with five parameters (`_pde_solvers.py:128`) and the first
`euler_step` call applies it to two, raising `TypeError` — reachable exactly
when the loop body runs, i.e. when the grid has at least two points. -/
def explicit_method (bvp : BVP n) (t : List ℚ) (method : String) :
    Except String (List (Fin n → ℚ)) :=
  match METHODS method with
  | none => .error "Invalid method"
  | some _k =>
      if t.isEmpty then .error "IndexError"
      else
        match bvp.q_fun with
        | some _ =>
            if 2 ≤ t.length then .error "TypeError"
            else .ok [pinColV bvp (bvp.f_fun bvp.x_array (t.headD 0))]
        | none => .ok ((List.range t.length).map (emCols bvp t))

/-- The columns of `implicit_euler` (`_pde_solvers.py:154-176`): column `0`
is `f_fun(x_array, t[0])` (an empty grid raises in the source; the `headD`
default is never consulted by the theorems, which assume a nonempty grid),
and each step solves
`(I - C*A) u_{ti+1} = u_{ti} + C*b` with the sparse or dense linear-solve
capability according to `bvp.sparse`. -/
def implCols (dsolve ssolve : Matrix (Fin n) (Fin n) ℚ → (Fin n → ℚ) → Fin n → ℚ)
    (bvp : BVP n) (t : List ℚ) : ℕ → Fin n → ℚ
  | 0 => bvp.f_fun bvp.x_array (t.headD 0)
  | k + 1 =>
      (if bvp.sparse then ssolve else dsolve) (1 - bvp.C • bvp.A)
        (implCols dsolve ssolve bvp t k + bvp.C • bvp.b)

/-- `implicit_euler` (`_pde_solvers.py:138-176`), returning the `len(t)`
columns of the solution buffer. -/
def implicit_euler
    (dsolve ssolve : Matrix (Fin n) (Fin n) ℚ → (Fin n → ℚ) → Fin n → ℚ)
    (bvp : BVP n) (t : List ℚ) : List (Fin n → ℚ) :=
  (List.range t.length).map (implCols dsolve ssolve bvp t)

/-- The columns of `imex_euler` (`_pde_solvers.py:218-254`): the implicit
solve uses `np.eye` and `np.linalg.solve` unconditionally (the dense
capability, lines 236 and 248), and when `q_fun` is present the explicit
correction `q_fun(x_array, t[ti], u[:, ti])` — evaluated at the *old*
column — is added (lines 251-252). -/
def imexCols (dsolve : Matrix (Fin n) (Fin n) ℚ → (Fin n → ℚ) → Fin n → ℚ)
    (bvp : BVP n) (t : List ℚ) : ℕ → Fin n → ℚ
  | 0 => bvp.f_fun bvp.x_array (t.headD 0)
  | k + 1 =>
      let u' := dsolve (1 - bvp.C • bvp.A) (imexCols dsolve bvp t k + bvp.C • bvp.b)
      match bvp.q_fun with
      | some q => u' + q bvp.x_array (t.getD k 0) (imexCols dsolve bvp t k)
      | none => u'

/-- `imex_euler` (`_pde_solvers.py:218-254`), returning the `len(t)` columns
of the solution buffer. -/
def imex_euler (dsolve : Matrix (Fin n) (Fin n) ℚ → (Fin n → ℚ) → Fin n → ℚ)
    (bvp : BVP n) (t : List ℚ) : List (Fin n → ℚ) :=
  (List.range t.length).map (imexCols dsolve bvp t)

/-! ### `explicit_euler` (`_pde_solvers.py:48-82`) -/

/-- Read entry `j` of a column, `0` out of range (the source loop only reads
indices `xi-1, xi, xi+1` for `1 ≤ xi ≤ n-2`, all in range). -/
def vget (v : Fin n → ℚ) (j : ℕ) : ℚ :=
  if h : j < n then v ⟨j, h⟩ else 0

/-- The interior update of `_pde_solvers.py:78`:
`u[xi, ti] + C * (u[xi-1, ti] - 2*u[xi, ti] + u[xi+1, ti])`. -/
def eeInterior (bvp : BVP n) (c : Fin n → ℚ) (xi : ℕ) : ℚ :=
  vget c xi + bvp.C * (vget c (xi - 1) - 2 * vget c xi + vget c (xi + 1))

/-- The upper-boundary update of `_pde_solvers.py:80`:
`u[xi, ti] + C * (beta - 2*u[xi, ti] + u[xi-1, ti])`. -/
def eeUpper (bvp : BVP n) (c : Fin n → ℚ) (xi : ℕ) : ℚ :=
  vget c xi + bvp.C * (bvp.beta - 2 * vget c xi + vget c (xi - 1))

/-- The value row `xi` of column `ti+1` receives inside the `xi` loop of
`_pde_solvers.py:73-80` (the `xi == 0` branch is dead, `xi` starts at 1). -/
def eeBody (bvp : BVP n) (c : Fin n → ℚ) (xi : ℕ) : ℚ :=
  if xi = 0 then bvp.alpha
  else if 0 < xi ∧ xi < bvp.Nv then eeInterior bvp c xi
  else eeUpper bvp c xi

/-- The buffer columns of `explicit_euler`: column 0 is the pinned initial
column; in column `ti+1` only rows `1 ≤ xi ≤ len(x)-2` are written by the
loop, the remaining rows keep the values set before the loop
(`u[0, :] = alpha`, `u[-1, :] = beta`, zeros elsewhere). -/
def eeCols (bvp : BVP n) (t : List ℚ) : ℕ → Fin n → ℚ
  | 0 => pinColV bvp (bvp.f_fun bvp.x_array (t.headD 0))
  | k + 1 =>
      fun i =>
        if 1 ≤ i.val ∧ i.val < n - 1 then eeBody bvp (eeCols bvp t k) i.val
        else if i.val = n - 1 then bvp.beta
        else if i.val = 0 then bvp.alpha
        else 0

/-- The state-by-time buffer `u` that `explicit_euler` fills
(`_pde_solvers.py:64-80`), as its list of `len(t)` columns. -/
def explicit_euler_buffer (bvp : BVP n) (t : List ℚ) : List (Fin n → ℚ) :=
  (List.range t.length).map (eeCols bvp t)

/-- `explicit_euler` (`_pde_solvers.py:48-82`): an empty time grid makes
`u[:, 0]` raise (modelled as an error); otherwise it fills the buffer and then
executes the bare `return` at line 82, so the caller receives `None` and the
buffer is discarded. -/
def explicit_euler (bvp : BVP n) (t : List ℚ) :
    Except String (Option (List (Fin n → ℚ))) :=
  if t.isEmpty then .error "IndexError"
  else .ok ((fun _ => none) (explicit_euler_buffer bvp t))


/-! ### PDE claim theorems -/

theorem map_range_getElem? {A : Type} (f : ℕ → A) (L i : ℕ) (hi : i < L) :
    ((List.range L).map f)[i]? = some (f i) := by
  rw [List.getElem?_map, List.getElem?_range hi]
  rfl

/-- **C5**: `implicit_euler` fills column 0 from the descriptor's
initial-condition function and computes each column `ti+1` as the
flag-selected (sparse/dense) linear solve of
`(I - C*A) u_{ti+1} = u_{ti} + C*b`; when the selected solver inverts the
matrix, each column indeed solves that linear system. -/
theorem implicit_euler_spec {n : ℕ}
    (dsolve ssolve : Matrix (Fin n) (Fin n) ℚ → (Fin n → ℚ) → Fin n → ℚ)
    (bvp : BVP n) (t : List ℚ) (hne : t ≠ [])
    (hsel : ∀ v, (1 - bvp.C • bvp.A).mulVec
      ((if bvp.sparse then ssolve else dsolve) (1 - bvp.C • bvp.A) v) = v) :
    (implicit_euler dsolve ssolve bvp t)[0]? =
      some (bvp.f_fun bvp.x_array (t.headD 0)) ∧
    (∀ ti, ti + 1 < t.length →
      (implicit_euler dsolve ssolve bvp t)[ti + 1]? =
        some ((if bvp.sparse then ssolve else dsolve) (1 - bvp.C • bvp.A)
          (implCols dsolve ssolve bvp t ti + bvp.C • bvp.b))) ∧
    (∀ ti, (1 - bvp.C • bvp.A).mulVec
        (implCols dsolve ssolve bvp t (ti + 1)) =
      implCols dsolve ssolve bvp t ti + bvp.C • bvp.b) := by
  refine ⟨?_, ?_, ?_⟩
  · rw [implicit_euler,
      map_range_getElem? _ _ _ (List.length_pos.2 hne)]
    rfl
  · intro ti hti
    rw [implicit_euler, map_range_getElem? _ _ _ hti]
    rfl
  · intro ti
    show (1 - bvp.C • bvp.A).mulVec
      ((if bvp.sparse then ssolve else dsolve) (1 - bvp.C • bvp.A)
        (implCols dsolve ssolve bvp t ti + bvp.C • bvp.b)) = _
    exact hsel _

/-- A one-point descriptor with zero diffusion matrix, used to witness the
implicit solvers (its `1 - C*A` is the identity, solved by the identity
solver); its sparsity flag is *set*, exercising the sparse branch. -/
def bvpW : BVP 1 where
  A := 0
  b := 0
  x_array := 0
  C := 1
  alpha := 0
  beta := 0
  f_fun := fun _ _ => 0
  q_fun := none
  sparse := true
  Nv := 1

/-- **C9**: on every descriptor and (nonempty) time grid, `explicit_euler`
returns `None`: its final statement is a bare `return`
(`_pde_solvers.py:82`), so the buffer it fills is discarded and no caller can
obtain a solution from this entry point. -/
theorem explicit_euler_returns_none {n : ℕ} (bvp : BVP n) (t : List ℚ)
    (hne : t ≠ []) : explicit_euler bvp t = .ok none := by
  rw [explicit_euler, if_neg (by simp [hne])]

/-- Witness for C9 on `bvpW` with grid `[0, 1]`. -/
theorem explicit_euler_returns_none_witness :
    (([(0:ℚ), 1] : List ℚ) ≠ []) ∧
      explicit_euler bvpW [0, 1] = .ok none :=
  ⟨by simp, explicit_euler_returns_none bvpW [0, 1] (by simp)⟩

/-- Witness for C5 on `bvpW` (sparse flag set, identity solvers). -/
theorem implicit_euler_spec_witness :
    (([(0:ℚ), 1] : List ℚ) ≠ []) ∧
    (∀ v, (1 - bvpW.C • bvpW.A).mulVec
      ((if bvpW.sparse then (fun _ v => v) else (fun _ v => v))
        (1 - bvpW.C • bvpW.A) v) = v) ∧
    ((implicit_euler (fun _ v => v) (fun _ v => v) bvpW [0, 1])[0]? =
      some (bvpW.f_fun bvpW.x_array (([(0:ℚ), 1]).headD 0)) ∧
    (∀ ti, ti + 1 < ([(0:ℚ), 1] : List ℚ).length →
      (implicit_euler (fun _ v => v) (fun _ v => v) bvpW [0, 1])[ti + 1]? =
        some ((if bvpW.sparse then (fun _ v => v) else (fun _ v => v))
          (1 - bvpW.C • bvpW.A)
          (implCols (fun _ v => v) (fun _ v => v) bvpW [0, 1] ti +
            bvpW.C • bvpW.b))) ∧
    (∀ ti, (1 - bvpW.C • bvpW.A).mulVec
        (implCols (fun _ v => v) (fun _ v => v) bvpW [0, 1] (ti + 1)) =
      implCols (fun _ v => v) (fun _ v => v) bvpW [0, 1] ti + bvpW.C • bvpW.b)) :=
  ⟨by simp, by intro v; simp [bvpW, Matrix.one_mulVec],
    implicit_euler_spec (fun _ v => v) (fun _ v => v) bvpW [0, 1] (by simp)
      (by intro v; simp [bvpW, Matrix.one_mulVec])⟩

/-- **C6**: each IMEX Euler step performs the same implicit diffusive solve as
Implicit Euler (always through the dense capability) and, when `q_fun` is
present, adds `q_fun(x_array, t[ti], u_ti)` evaluated at the old column; with
`q_fun` absent and both capabilities inverting `I - C*A`, `imex_euler` and
`implicit_euler` return equal solutions, including when the sparse flag is
set. -/
theorem imex_matches_implicit {n : ℕ}
    (dsolve ssolve : Matrix (Fin n) (Fin n) ℚ → (Fin n → ℚ) → Fin n → ℚ)
    (bvp : BVP n) (t : List ℚ)
    (hD : ∀ v, (1 - bvp.C • bvp.A).mulVec (dsolve (1 - bvp.C • bvp.A) v) = v)
    (hS : ∀ v, (1 - bvp.C • bvp.A).mulVec (ssolve (1 - bvp.C • bvp.A) v) = v)
    (hInj : Function.Injective (1 - bvp.C • bvp.A).mulVec) :
    (∀ q, bvp.q_fun = some q → ∀ ti,
      imexCols dsolve bvp t (ti + 1) =
        dsolve (1 - bvp.C • bvp.A)
            (imexCols dsolve bvp t ti + bvp.C • bvp.b) +
          q bvp.x_array (t.getD ti 0) (imexCols dsolve bvp t ti)) ∧
    (bvp.q_fun = none →
      imex_euler dsolve bvp t = implicit_euler dsolve ssolve bvp t) := by
  constructor
  · intro q hq ti
    simp [imexCols, hq]
  · intro hq
    have hcols : ∀ k, imexCols dsolve bvp t k = implCols dsolve ssolve bvp t k := by
      intro k
      induction k with
      | zero => rfl
      | succ k ih =>
        have h1 : imexCols dsolve bvp t (k + 1) =
            dsolve (1 - bvp.C • bvp.A)
              (imexCols dsolve bvp t k + bvp.C • bvp.b) := by
          simp [imexCols, hq]
        have h2 : implCols dsolve ssolve bvp t (k + 1) =
            (if bvp.sparse then ssolve else dsolve) (1 - bvp.C • bvp.A)
              (implCols dsolve ssolve bvp t k + bvp.C • bvp.b) := rfl
        rw [h1, h2, ih]
        cases hsp : bvp.sparse with
        | false => rfl
        | true =>
          rw [if_pos rfl]
          apply hInj
          rw [hD, hS]
    simp only [imex_euler, implicit_euler]
    exact List.map_congr_left fun k _ => hcols k

/-- Witness for C6 on `bvpW` (sparse flag set, `q_fun` absent, identity
solvers, `1 - C*A` the identity and injective). -/
theorem imex_matches_implicit_witness :
    (∀ v, (1 - bvpW.C • bvpW.A).mulVec
      ((fun _ v => v) (1 - bvpW.C • bvpW.A) v) = v) ∧
    Function.Injective (1 - bvpW.C • bvpW.A).mulVec ∧
    ((∀ q, bvpW.q_fun = some q → ∀ ti,
      imexCols (fun _ v => v) bvpW [0, 1] (ti + 1) =
        (fun _ v => v) (1 - bvpW.C • bvpW.A)
            (imexCols (fun _ v => v) bvpW [0, 1] ti + bvpW.C • bvpW.b) +
          q bvpW.x_array (([(0:ℚ), 1]).getD ti 0)
            (imexCols (fun _ v => v) bvpW [0, 1] ti)) ∧
    (bvpW.q_fun = none →
      imex_euler (fun _ v => v) bvpW [0, 1] =
        implicit_euler (fun _ v => v) (fun _ v => v) bvpW [0, 1])) := by
  have hid : ∀ v, (1 - bvpW.C • bvpW.A).mulVec
      ((fun _ v => v) (1 - bvpW.C • bvpW.A) v) = v := by
    intro v; simp [bvpW, Matrix.one_mulVec]
  have hinj : Function.Injective (1 - bvpW.C • bvpW.A).mulVec := by
    intro a b hab
    have h1 : ∀ v : Fin 1 → ℚ, (1 - bvpW.C • bvpW.A).mulVec v = v := by
      intro v; simp [bvpW, Matrix.one_mulVec]
    rw [h1, h1] at hab
    exact hab
  exact ⟨hid, hinj,
    imex_matches_implicit (fun _ v => v) (fun _ v => v) bvpW [0, 1]
      hid hid hinj⟩

/-- A concrete two-point descriptor whose discretization matrix has a nonzero
first row (`A = [[1,0],[0,0]]`, `b = 0`, `C = 1`, `alpha = 5`, `beta = 7`):
the Euler step moves the first row away from `alpha`. -/
def bvpC8 : BVP 2 where
  A := Matrix.of ![![1, 0], ![0, 0]]
  b := 0
  x_array := 0
  C := 1
  alpha := 5
  beta := 7
  f_fun := fun _ _ => 0
  q_fun := none
  sparse := false
  Nv := 2

/-- **C8 (counterexample)**: boundary rows are *not* pinned through all time
steps by `explicit_method`: the loop at `_pde_solvers.py:133` overwrites the
whole column, so on `bvpC8` with grid `[0, 1]` the first row of time column 1
is `10`, not `alpha = 5`. -/
theorem explicit_method_pinning_counterexample :
    (explicit_method bvpC8 [0, 1] "Euler").toOption.map
      (fun cols => cols.getD 1 0 0) = some 10 ∧
    bvpC8.alpha = 5 := by
  have hform : explicit_method bvpC8 [0, 1] "Euler" =
      .ok ((List.range (([0, 1] : List ℚ)).length).map (emCols bvpC8 [0, 1])) :=
    rfl
  have hentry : ((List.range (([0, 1] : List ℚ)).length).map
      (emCols bvpC8 [0, 1])).getD 1 0 = emCols bvpC8 [0, 1] 1 := by
    rw [List.getD_eq_getElem?_getD, map_range_getElem? _ _ _ (by simp)]
    rfl
  have hval : emCols bvpC8 [0, 1] 1 0 = 10 := by
    show (euler_step (molRhs bvpC8) ((([0, 1] : List ℚ)).headD 0 + (0 : ℕ))
      (emCols bvpC8 [0, 1] 0) 1).2 0 = 10
    simp [euler_step, molRhs, emCols, pinColV, bvpC8, Matrix.mulVec,
      Matrix.dotProduct, Fin.sum_univ_two, Matrix.cons_val_zero,
      Matrix.cons_val_one, Matrix.head_cons, Matrix.vecHead, Matrix.vecTail,
      Function.comp, Pi.smul_apply, smul_eq_mul]
    norm_num
  rw [hform]
  refine ⟨?_, rfl⟩
  show some (((List.range (([0, 1] : List ℚ)).length).map
      (emCols bvpC8 [0, 1])).getD 1 0 0) = some 10
  rw [hentry, hval]

/-- **C8 (amended)**: in `explicit_method`'s solution, the boundary rows
equal `alpha`/`beta` in the *initial* time column only; every later column is
produced wholesale by the Euler step applied to the previous column, so the
boundary rows stay at `alpha`/`beta` only when that step happens to preserve
them. -/
theorem explicit_method_boundary_amended {n : ℕ} (bvp : BVP n) (t : List ℚ)
    (name : String) (k : StepKind) (hm : METHODS name = some k)
    (hq : bvp.q_fun = none) (hne : t ≠ []) (hn2 : 2 ≤ n) :
    ∃ cols, explicit_method bvp t name = .ok cols ∧
      cols.length = t.length ∧
      (∀ j, j < t.length → cols[j]? = some (emCols bvp t j)) ∧
      (∀ i : Fin n, i.val = 0 → emCols bvp t 0 i = bvp.alpha) ∧
      (∀ i : Fin n, i.val = n - 1 → emCols bvp t 0 i = bvp.beta) ∧
      (∀ j, emCols bvp t (j + 1) =
        (euler_step (molRhs bvp) (t.headD 0 + j) (emCols bvp t j) 1).2) := by
  obtain ⟨a, l, rfl⟩ : ∃ a l, t = a :: l := by
    cases t with
    | nil => exact absurd rfl hne
    | cons a l => exact ⟨a, l, rfl⟩
  have hform : explicit_method bvp (a :: l) name =
      .ok ((List.range (a :: l).length).map (emCols bvp (a :: l))) := by
    simp [explicit_method, hm, hq]
  refine ⟨_, hform, ?_, ?_, ?_, ?_, ?_⟩
  · simp
  · intro j hj
    exact map_range_getElem? _ _ _ hj
  · intro i h0
    show pinColV bvp (bvp.f_fun bvp.x_array ((a :: l).headD 0)) i = bvp.alpha
    rw [pinColV]
    rw [if_neg (by omega), if_pos h0]
  · intro i hlast
    show pinColV bvp (bvp.f_fun bvp.x_array ((a :: l).headD 0)) i = bvp.beta
    rw [pinColV]
    rw [if_pos hlast]
  · intro j
    rfl

/-- Witness for the amended C8 on `bvpC8` with grid `[0, 1]`. -/
theorem explicit_method_boundary_amended_witness :
    METHODS "Euler" = some .euler ∧ bvpC8.q_fun = none ∧
    ([(0:ℚ), 1] : List ℚ) ≠ [] ∧ 2 ≤ 2 ∧
    (∃ cols, explicit_method bvpC8 [0, 1] "Euler" = .ok cols ∧
      cols.length = ([(0:ℚ), 1] : List ℚ).length ∧
      (∀ j, j < ([(0:ℚ), 1] : List ℚ).length →
        cols[j]? = some (emCols bvpC8 [0, 1] j)) ∧
      (∀ i : Fin 2, i.val = 0 → emCols bvpC8 [0, 1] 0 i = bvpC8.alpha) ∧
      (∀ i : Fin 2, i.val = 2 - 1 → emCols bvpC8 [0, 1] 0 i = bvpC8.beta) ∧
      (∀ j, emCols bvpC8 [0, 1] (j + 1) =
        (euler_step (molRhs bvpC8) (([(0:ℚ), 1] : List ℚ).headD 0 + j)
          (emCols bvpC8 [0, 1] j) 1).2)) :=
  ⟨rfl, rfl, by simp, by norm_num,
    explicit_method_boundary_amended bvpC8 [0, 1] "Euler" .euler rfl rfl
      (by simp) (by norm_num)⟩

/-- A concrete one-point descriptor (`A = [[1]]`, `b = 0`, `C = 1`, initial
column `[1]`) on which a genuine RK4 step differs from the Euler step. -/
def bvpC2 : BVP 1 where
  A := Matrix.of ![![1]]
  b := 0
  x_array := 0
  C := 1
  alpha := 0
  beta := 1
  f_fun := fun _ _ => 0
  q_fun := none
  sparse := false
  Nv := 1

/-- **C2**: `explicit_method` validates and resolves its `method` argument but
then ignores it — the loop at `_pde_solvers.py:133` always calls
`euler_step`.  On `bvpC2` with grid `[0, 1]`, `method='RK4'` returns exactly
the `method='Euler'` solution, whose column 1 entry is `2` (the Euler step),
while the RK4 step of the same method-of-lines right-hand side yields a
different value (`65/24`). -/
theorem explicit_method_ignores_method :
    explicit_method bvpC2 [0, 1] "RK4" = explicit_method bvpC2 [0, 1] "Euler" ∧
    (explicit_method bvpC2 [0, 1] "RK4").toOption.map
      (fun cols => cols.getD 1 0 0) = some 2 ∧
    (rk4_step (molRhs bvpC2) 0 (emCols bvpC2 [0, 1] 0) 1).2 0 ≠
      emCols bvpC2 [0, 1] 1 0 := by
  have hform : explicit_method bvpC2 [0, 1] "RK4" =
      .ok ((List.range (([0, 1] : List ℚ)).length).map (emCols bvpC2 [0, 1])) :=
    rfl
  have hentry : ((List.range (([0, 1] : List ℚ)).length).map
      (emCols bvpC2 [0, 1])).getD 1 0 = emCols bvpC2 [0, 1] 1 := by
    rw [List.getD_eq_getElem?_getD, map_range_getElem? _ _ _ (by simp)]
    rfl
  have hval : emCols bvpC2 [0, 1] 1 0 = 2 := by
    show (euler_step (molRhs bvpC2) ((([0, 1] : List ℚ)).headD 0 + (0 : ℕ))
      (emCols bvpC2 [0, 1] 0) 1).2 0 = 2
    simp [euler_step, molRhs, emCols, pinColV, bvpC2, Matrix.mulVec,
      Matrix.dotProduct, Fin.sum_univ_one, Matrix.cons_val_zero,
      Matrix.head_cons, Matrix.vecHead, Matrix.vecTail, Function.comp,
      Pi.smul_apply, smul_eq_mul]
    norm_num
  refine ⟨rfl, ?_, ?_⟩
  · rw [hform]
    show some (((List.range (([0, 1] : List ℚ)).length).map
        (emCols bvpC2 [0, 1])).getD 1 0 0) = some 2
    rw [hentry, hval]
  · rw [hval]
    have hcol0 : emCols bvpC2 [0, 1] 0 = fun _ => 1 := by
      funext i
      show pinColV bvpC2 (bvpC2.f_fun bvpC2.x_array (([(0:ℚ), 1]).headD 0)) i = 1
      rw [pinColV]
      rw [if_pos (by omega)]
      rfl
    rw [hcol0]
    simp [rk4_step, molRhs, bvpC2, Matrix.mulVec, Matrix.dotProduct,
      Fin.sum_univ_one, Matrix.cons_val_zero, Matrix.head_cons,
      Matrix.vecHead, Matrix.vecTail, Function.comp, Pi.smul_apply,
      smul_eq_mul]
    norm_num

end SciComp
